import Mathlib

/-!
Verification of the CryptoBreaker cryptanalysis engine.

Shallow embedding of the classical-cipher library (`src/lib/crypto.js`,
shipped inside `merkle.js`), the English-text analyzer (`analyzer.js`) and
the background worker's crack-job completion path (`worker.js`).  Strings
are modelled as `List Char`, JS numbers on the cipher paths as `Int`/`Nat`,
and JS floating-point scores as exact rationals `ℚ`.  The JS `%` operator
on integers is truncated remainder, modelled by `Int.tmod`.
-/

namespace CryptoBreaker

/-- JS `c.charCodeAt(0) - 'A'.charCodeAt(0)`. -/
def charToNum (c : Char) : Int := (c.toNat : Int) - 65

/-- JS `String.fromCharCode(((n % 26) + 26) % 26 + 'A'.charCodeAt(0))`;
JS `%` on integers is truncated remainder (`Int.tmod`). -/
def numToChar (n : Int) : Char :=
  Char.ofNat ((((n.tmod 26) + 26).tmod 26).toNat + 65)

/-- Membership in the regex character class `[A-Z]` (char codes 65..90). -/
def isUpperAZ (c : Char) : Bool := 65 ≤ c.toNat && c.toNat ≤ 90

/-- JS `text.toUpperCase().replace(/[^A-Z ]/g, '')`. -/
def cleanText (t : List Char) : List Char :=
  (t.map Char.toUpper).filter (fun c => isUpperAZ c || c == ' ')

/-- `cleanText` followed by `.replace(/ /g, '')`, the combination used by the
space-stripping ciphers. -/
def cleanNoSpace (t : List Char) : List Char :=
  (cleanText t).filter (fun c => c != ' ')

/-- JS `text.replace(/[^A-Z]/g, '')` (no uppercasing). -/
def filterAZ (t : List Char) : List Char := t.filter isUpperAZ

/-- The recursive `gcd(a, b) = b === 0 ? a : gcd(b, a % b)` from the source,
on the nonnegative integers the key fields range over. -/
def jsGcd (a b : Nat) : Nat :=
  if b = 0 then a else jsGcd b (a % b)
termination_by b
decreasing_by exact Nat.mod_lt _ (Nat.pos_of_ne_zero (by assumption))

/-- `modInverse(k, 26)`: normalize `k` into `[0, 26)` then scan `x = 1..25`
for `(k * x) % 26 === 1`; `null` (here `none`) when no inverse exists. -/
def modInverse (k : Int) : Option Int :=
  let k' := ((k.tmod 26) + 26).tmod 26
  ((List.range' 1 25).find? (fun x : Nat => (k' * (x : Int)).tmod 26 == 1)).map
    (fun x : Nat => (x : Int))

-- ==================== ADDITIVE CIPHER ====================

/-- `encryptAdditive`: clean, then shift every letter by `key`, spaces pass
through unchanged. -/
def encryptAdditive (plaintext : List Char) (key : Int) : List Char :=
  (cleanText plaintext).map
    (fun c => if c = ' ' then ' ' else numToChar (charToNum c + key))

/-- `decryptAdditive`: shift every letter of the (uncleaned) ciphertext back
by `key`, spaces pass through unchanged. -/
def decryptAdditive (ciphertext : List Char) (key : Int) : List Char :=
  ciphertext.map
    (fun c => if c = ' ' then ' ' else numToChar (charToNum c - key))

/-- Candidate result record `{ key, plaintext, score }` built by the search
strategies; `keyDisplay` is presentation-only and omitted, `confidence` is
filled in by the scorer (initially 0, as `score`). -/
structure CandidateResult (κ : Type) where
  key : κ
  plaintext : List Char
  score : ℚ
  confidence : Int
deriving DecidableEq, Repr

/-- `bruteForceAdditive`: decode the cleaned ciphertext under every key
0..25, in enumeration order. -/
def bruteForceAdditive (ciphertext : List Char) : List (CandidateResult Nat) :=
  (List.range 26).map (fun key =>
    { key := key
      plaintext := decryptAdditive (cleanText ciphertext) (key : Int)
      score := 0
      confidence := 0 })

-- ==================== COLUMNAR TRANSPOSITION ====================

/-- Column read-order induced by sorting the key letters alphabetically,
ties broken by original index (JS stable `sort` with `localeCompare`,
which on single uppercase letters is char-code order). -/
def columnarOrder (keyClean : List Char) : List Nat :=
  ((keyClean.enum).insertionSort (fun p q => p.2 ≤ q.2)).map (fun p => p.1)

/-- `encryptColumnar`: write the X-padded text row-major into
`keyClean.length` columns, read the columns out in `columnarOrder`. -/
def encryptColumnar (plaintext key : List Char) : List Char :=
  let cleaned := cleanNoSpace plaintext
  let keyClean := cleanNoSpace key
  let numCols := keyClean.length
  let numRows := (cleaned.length + numCols - 1) / numCols
  let padded := cleaned ++ List.replicate (numRows * numCols - cleaned.length) 'X'
  let grid := (List.range numRows).map
    (fun i => (padded.drop (i * numCols)).take numCols)
  (columnarOrder keyClean).flatMap
    (fun col => grid.filterMap (fun row => row.get? col))

/-- `decryptColumnar`: slice the ciphertext into columns following
`columnarOrder`, then read the grid back row-major (skipping missing
cells, as the JS truthiness check `if (cols[c][r])` does). -/
def decryptColumnar (ciphertext key : List Char) : List Char :=
  let cleaned := filterAZ ciphertext
  let keyClean := cleanNoSpace key
  let numCols := keyClean.length
  let numRows := (cleaned.length + numCols - 1) / numCols
  let cols := ((columnarOrder keyClean).foldl
    (fun (acc : List (List Char) × Nat) col =>
      (acc.1.set col ((cleaned.drop acc.2).take numRows), acc.2 + numRows))
    (List.replicate numCols [], 0)).1
  (List.range numRows).flatMap
    (fun r => (List.range numCols).filterMap (fun c => (cols.getD c []).get? r))

-- ==================== ROUND-TRIP LEMMAS (ADDITIVE) ====================

lemma tmod_canon_eq_emod (n : Int) : ((n.tmod 26) + 26).tmod 26 = n % 26 := by
  rcases le_or_lt 0 n with hn | hn
  · rw [Int.tmod_eq_emod hn (by norm_num), Int.tmod_eq_emod (by omega) (by norm_num)]
    omega
  · have h4 : (-n).tdiv 26 = -(n.tdiv 26) := Int.neg_tdiv n 26
    have h1 := Int.tmod_add_tdiv n 26
    have h2 := Int.tmod_add_tdiv (-n) 26
    have h3 : (-n).tmod 26 = (-n) % 26 := Int.tmod_eq_emod (by omega) (by norm_num)
    have hneg : n.tmod 26 = -((-n) % 26) := by omega
    rw [hneg, Int.tmod_eq_emod (by omega) (by norm_num)]
    omega

lemma char_ofNat_upper_toNat : ∀ r : Nat, r < 26 →
    (Char.ofNat (r + 65)).toNat = r + 65 := by decide

lemma char_ofNat_upper_ne_space : ∀ r : Nat, r < 26 →
    Char.ofNat (r + 65) ≠ ' ' := by decide

lemma charToNum_numToChar (m : Int) : charToNum (numToChar m) = m % 26 := by
  unfold charToNum numToChar
  rw [tmod_canon_eq_emod]
  have hlt : (m % 26).toNat < 26 := by omega
  rw [char_ofNat_upper_toNat _ hlt]
  omega

lemma numToChar_congr {a b : Int} (h : a % 26 = b % 26) :
    numToChar a = numToChar b := by
  unfold numToChar
  rw [tmod_canon_eq_emod, tmod_canon_eq_emod, h]

lemma numToChar_ne_space (m : Int) : numToChar m ≠ ' ' := by
  unfold numToChar
  rw [tmod_canon_eq_emod]
  exact char_ofNat_upper_ne_space _ (by omega)

lemma additive_char_roundtrip (c : Char) (key : Int)
    (h : isUpperAZ c = true) :
    numToChar (charToNum (numToChar (charToNum c + key)) - key) = c := by
  have hb : 65 ≤ c.toNat ∧ c.toNat ≤ 90 := by
    unfold isUpperAZ at h
    simpa [Bool.and_eq_true, decide_eq_true_eq] using h
  rw [charToNum_numToChar]
  have hcong : ((charToNum c + key) % 26 - key) % 26 =
      (charToNum c) % 26 := by omega
  rw [numToChar_congr hcong]
  unfold numToChar charToNum
  rw [tmod_canon_eq_emod]
  have hmod : ((c.toNat : Int) - 65) % 26 = (c.toNat : Int) - 65 := by omega
  rw [hmod]
  have htn : (((c.toNat : Int) - 65).toNat + 65) = c.toNat := by omega
  rw [htn, Char.ofNat_toNat]

/-- Claim C1 (amended part): the additive round-trip identity
`decryptAdditive (encryptAdditive text key) key = cleanText text` holds for
every text and every integer key. -/
theorem claim_C1 (text : List Char) (key : Int) :
    decryptAdditive (encryptAdditive text key) key = cleanText text := by
  unfold decryptAdditive encryptAdditive
  rw [List.map_map]
  have hid : ∀ c ∈ cleanText text,
      ((fun c => if c = ' ' then ' ' else numToChar (charToNum c - key)) ∘
        (fun c => if c = ' ' then ' ' else numToChar (charToNum c + key))) c
        = id c := by
    intro c hc
    have hpred : (isUpperAZ c || c == ' ') = true := by
      have := List.of_mem_filter (by exact hc)
      exact this
    rcases Bool.or_eq_true _ _ |>.mp hpred with hu | hs
    · have hne : c ≠ ' ' := by
        intro heq
        unfold isUpperAZ at hu
        rw [heq] at hu
        simp at hu
      simp only [Function.comp, id]
      rw [if_neg hne, if_neg (numToChar_ne_space _)]
      exact additive_char_roundtrip c key hu
    · have hceq : c = ' ' := by simpa using hs
      simp [Function.comp, hceq]
  rw [List.map_congr_left hid, List.map_id]

/-- Claim C1 counterexample: the round-trip identity fails for the padding
cipher columnar transposition, which X-pads to a full rectangle: on input
"AB" with key "KEY" the round trip returns "ABX", not the normalized input
"AB". -/
theorem claim_C1_counterexample :
    decryptColumnar (encryptColumnar "AB".toList "KEY".toList) "KEY".toList
      ≠ cleanText "AB".toList := by decide

/-- Claim C2: brute-forcing `encryptAdditive "HELLOWORLD" 3` yields exactly
26 candidates whose keys are 0..25 in enumeration order, and the candidate
for key 3 has plaintext exactly "HELLOWORLD". -/
theorem claim_C2 :
    (bruteForceAdditive (encryptAdditive "HELLOWORLD".toList 3)).length = 26
    ∧ (bruteForceAdditive (encryptAdditive "HELLOWORLD".toList 3)).map
        (fun r => r.key) = List.range 26
    ∧ ((bruteForceAdditive (encryptAdditive "HELLOWORLD".toList 3)).map
        (fun r => r.plaintext)).getD 3 [] = "HELLOWORLD".toList := by
  refine ⟨by decide, by decide, by decide⟩

-- ==================== VIGENERE CIPHER ====================

/-- `encryptVigenere`: cyclic key stream over the space-stripped cleaned
plaintext; throws (`none`) when the cleaned key is empty. -/
def encryptVigenere (plaintext key : List Char) : Option (List Char) :=
  if (cleanNoSpace key).isEmpty then none
  else some ((cleanNoSpace plaintext).enum.map (fun p =>
    numToChar (charToNum p.2 +
      charToNum ((cleanNoSpace key).getD (p.1 % (cleanNoSpace key).length) 'A'))))

/-- `decryptVigenere`: subtract the cyclic key stream; the ciphertext only
has its spaces removed (`replace(/ /g, '')`), it is not otherwise cleaned;
returns `null` (`none`) when the cleaned key is empty. -/
def decryptVigenere (ciphertext key : List Char) : Option (List Char) :=
  if (cleanNoSpace key).isEmpty then none
  else some ((ciphertext.filter (fun c => c != ' ')).enum.map (fun p =>
    numToChar (charToNum p.2 -
      charToNum ((cleanNoSpace key).getD (p.1 % (cleanNoSpace key).length) 'A'))))

/-- Claim C3: the classic known vector: Vigenère encode of "ATTACKATDAWN"
under key "LEMON" is exactly "LXFOPVEFRNHR", and decoding it with the same
key returns "ATTACKATDAWN". -/
theorem claim_C3 :
    encryptVigenere "ATTACKATDAWN".toList "LEMON".toList
      = some "LXFOPVEFRNHR".toList
    ∧ decryptVigenere "LXFOPVEFRNHR".toList "LEMON".toList
      = some "ATTACKATDAWN".toList := by
  refine ⟨by decide, by decide⟩

-- ==================== MULTIPLICATIVE / VERNAM (claim C5) ====================

/-- `encryptMultiplicative`: the key validity check `gcd(key, 26) !== 1`
runs first and throws (`none`) before the mapping loop starts. -/
def encryptMultiplicative (plaintext : List Char) (key : Nat) :
    Option (List Char) :=
  if jsGcd key 26 ≠ 1 then none
  else some ((cleanText plaintext).map (fun c =>
    if c = ' ' then ' ' else numToChar (charToNum c * (key : Int))))

/-- `encryptVernam`: the key length check runs first and throws (`none`)
before the letter-wise mod-26 addition loop starts; only the ciphertext
string is modelled (the source also returns presentation `steps`). -/
def encryptVernam (plaintext key : List Char) : Option (List Char) :=
  if (cleanNoSpace key).length < (cleanNoSpace plaintext).length then none
  else some ((cleanNoSpace plaintext).enum.map (fun p =>
    numToChar ((charToNum p.2 +
      charToNum ((cleanNoSpace key).getD p.1 'A')).tmod 26)))

lemma jsGcd_eq (a b : Nat) : jsGcd a b = Nat.gcd b a := by
  induction b using Nat.strong_induction_on generalizing a with
  | _ b ih =>
    rw [jsGcd]
    by_cases hb : b = 0
    · subst hb
      simp
    · rw [if_neg hb, ih (a % b) (Nat.mod_lt _ (Nat.pos_of_ne_zero hb)) b]
      exact (Nat.gcd_rec b a).symm

/-- Claim C5: invalid keys fail closed with no partial output: for every
plaintext, `encryptMultiplicative` with a key not coprime with 26 returns
no ciphertext, and `encryptVernam` with a cleaned key shorter than the
cleaned plaintext returns no ciphertext; both checks run before the
respective transformation loops. -/
theorem claim_C5 (plaintext : List Char) (key : Nat) (vkey : List Char) :
    (Nat.gcd key 26 ≠ 1 → encryptMultiplicative plaintext key = none)
    ∧ ((cleanNoSpace vkey).length < (cleanNoSpace plaintext).length →
        encryptVernam plaintext vkey = none) := by
  constructor
  · intro h
    unfold encryptMultiplicative
    rw [if_pos]
    rw [jsGcd_eq, Nat.gcd_comm]
    exact h
  · intro h
    unfold encryptVernam
    rw [if_pos h]

/-- Witness for claim C5 at key 13 (gcd 13) and a 2-letter Vernam key
against a 5-letter plaintext. -/
theorem claim_C5_witness :
    (Nat.gcd 13 26 ≠ 1 ∧ encryptMultiplicative "ABC".toList 13 = none)
    ∧ ((cleanNoSpace "AB".toList).length < (cleanNoSpace "HELLO".toList).length
        ∧ encryptVernam "HELLO".toList "AB".toList = none) :=
  ⟨⟨by decide, (claim_C5 "ABC".toList 13 "AB".toList).1 (by decide)⟩,
   ⟨by decide, (claim_C5 "HELLO".toList 13 "AB".toList).2 (by decide)⟩⟩

-- ==================== HILL CIPHER (2x2) ====================

/-- A 2x2 integer matrix `((a, b), (c, d))`, i.e. rows
`[matrix[0][0], matrix[0][1]]` and `[matrix[1][0], matrix[1][1]]`. -/
abbrev Matrix2 := (Int × Int) × (Int × Int)

/-- The JS idiom `((x % mod) + mod) % mod` for `mod = 26`. -/
def canon26 (x : Int) : Int := ((x.tmod 26) + 26).tmod 26

/-- `matrixMult2x2`: matrix-vector product; each entry is reduced with
`% 26` and then normalized by `((x % 26) + 26) % 26`. -/
def matrixMult2x2 (m : Matrix2) (v : Int × Int) : Int × Int :=
  (canon26 ((m.1.1 * v.1 + m.1.2 * v.2).tmod 26),
   canon26 ((m.2.1 * v.1 + m.2.2 * v.2).tmod 26))

/-- `matrixInverse2x2`: adjugate/determinant-inverse formula mod 26;
`null` (`none`) when the determinant has no inverse mod 26. -/
def matrixInverse2x2 (m : Matrix2) : Option Matrix2 :=
  let det := (m.1.1 * m.2.2 - m.1.2 * m.2.1).tmod 26
  let detPos := ((det.tmod 26) + 26).tmod 26
  match modInverse detPos with
  | none => none
  | some detInv =>
      some ((canon26 ((m.2.2 * detInv).tmod 26),
             canon26 (((-m.1.2 * detInv).tmod 26 + 26).tmod 26)),
            (canon26 (((-m.2.1 * detInv).tmod 26 + 26).tmod 26),
             canon26 ((m.1.1 * detInv).tmod 26)))

/-- Digraph splitting used by the Hill loops: characters are consumed two
at a time and a missing final partner falls back to 'X'
(`cleaned[i + 1] || 'X'`). -/
def hillPairs : List Char → List (Char × Char)
  | [] => []
  | [a] => [(a, 'X')]
  | a :: b :: rest => (a, b) :: hillPairs rest

/-- `encryptHill`: clean and strip spaces, X-pad odd-length input, then
multiply each 2-letter column vector by the matrix; no key-validity check
is performed. -/
def encryptHill (plaintext : List Char) (m : Matrix2) : List Char :=
  let cleaned := cleanNoSpace plaintext
  let padded := if cleaned.length % 2 = 0 then cleaned else cleaned ++ ['X']
  (hillPairs padded).flatMap (fun p =>
    let enc := matrixMult2x2 m (charToNum p.1, charToNum p.2)
    [numToChar enc.1, numToChar enc.2])

/-- `decryptHill`: compute the matrix inverse first and return `null`
(`none`) when it does not exist; otherwise multiply each ciphertext
digraph by the inverse. -/
def decryptHill (ciphertext : List Char) (m : Matrix2) :
    Option (List Char) :=
  match matrixInverse2x2 m with
  | none => none
  | some inv =>
      some ((hillPairs (filterAZ ciphertext)).flatMap (fun p =>
        let dec := matrixMult2x2 inv (charToNum p.1, charToNum p.2)
        [numToChar dec.1, numToChar dec.2]))

lemma gcd_emod_26 (k : Int) : Int.gcd (k % 26) 26 = Int.gcd k 26 := by
  apply Nat.dvd_antisymm
  · have h1 : (↑(Int.gcd (k % 26) 26) : ℤ) ∣ k % 26 := Int.gcd_dvd_left
    have h2 : (↑(Int.gcd (k % 26) 26) : ℤ) ∣ 26 := Int.gcd_dvd_right
    have h3 : (↑(Int.gcd (k % 26) 26) : ℤ) ∣ k := by
      have hsum : (↑(Int.gcd (k % 26) 26) : ℤ) ∣ k % 26 + 26 * (k / 26) :=
        dvd_add h1 (h2.mul_right (k / 26))
      have hk : k % 26 + 26 * (k / 26) = k := by omega
      rwa [hk] at hsum
    exact Int.natCast_dvd_natCast.mp (Int.dvd_gcd h3 h2)
  · have h1 : (↑(Int.gcd k 26) : ℤ) ∣ k := Int.gcd_dvd_left
    have h2 : (↑(Int.gcd k 26) : ℤ) ∣ 26 := Int.gcd_dvd_right
    have h3 : (↑(Int.gcd k 26) : ℤ) ∣ k % 26 := by
      have hsub : (↑(Int.gcd k 26) : ℤ) ∣ k - 26 * (k / 26) :=
        dvd_sub h1 (h2.mul_right (k / 26))
      have hk : k - 26 * (k / 26) = k % 26 := by omega
      rwa [hk] at hsub
    exact Int.natCast_dvd_natCast.mp (Int.dvd_gcd h3 h2)

lemma modInverse_scan : ∀ n : Nat, n < 26 →
    ((((List.range' 1 25).find?
        (fun x : Nat => ((n : Int) * (x : Int)).tmod 26 == 1)) = none)
      ↔ Nat.gcd n 26 ≠ 1) := by decide

lemma modInverse_eq_none_iff (k : Int) :
    modInverse k = none ↔ Int.gcd k 26 ≠ 1 := by
  obtain ⟨m, hm1, hm2⟩ : ∃ m : Nat, k % 26 = (m : Int) ∧ m < 26 :=
    ⟨(k % 26).toNat, by omega, by omega⟩
  unfold modInverse
  simp only [Option.map_eq_none', tmod_canon_eq_emod, hm1]
  have hinv : Int.gcd k 26 = Nat.gcd m 26 := by
    rw [← gcd_emod_26 k, hm1, Int.gcd_def]
    simp
  rw [hinv]
  exact modInverse_scan m hm2

lemma matrixInverse2x2_eq_none_iff (m : Matrix2) :
    matrixInverse2x2 m = none
      ↔ Int.gcd (m.1.1 * m.2.2 - m.1.2 * m.2.1) 26 ≠ 1 := by
  have hD : (((m.1.1 * m.2.2 - m.1.2 * m.2.1).tmod 26).tmod 26 + 26).tmod 26
      = (m.1.1 * m.2.2 - m.1.2 * m.2.1) % 26 := by
    rw [tmod_canon_eq_emod]
    have := Int.tmod_add_tdiv (m.1.1 * m.2.2 - m.1.2 * m.2.1) 26
    omega
  simp only [matrixInverse2x2]
  rw [hD]
  have hiff := modInverse_eq_none_iff ((m.1.1 * m.2.2 - m.1.2 * m.2.1) % 26)
  rw [gcd_emod_26] at hiff
  cases hmi : modInverse ((m.1.1 * m.2.2 - m.1.2 * m.2.1) % 26) with
  | none =>
      rw [hmi] at hiff
      exact ⟨fun _ => hiff.mp rfl, fun _ => rfl⟩
  | some detInv =>
      refine ⟨fun hcontra => absurd hcontra (by simp), fun hg => ?_⟩
      exact absurd (hiff.mpr hg) (by simp [hmi])

/-- Claim C4: Hill decode fails closed: `decryptHill` returns `none`
exactly when the key matrix is not invertible mod 26 (determinant not
coprime with 26), and returns a plaintext string in every other case. -/
theorem claim_C4 (ciphertext : List Char) (m : Matrix2) :
    decryptHill ciphertext m = none
      ↔ Int.gcd (m.1.1 * m.2.2 - m.1.2 * m.2.1) 26 ≠ 1 := by
  have h2 := matrixInverse2x2_eq_none_iff m
  unfold decryptHill
  cases hm : matrixInverse2x2 m with
  | none =>
      rw [hm] at h2
      exact ⟨fun _ => h2.mp rfl, fun _ => rfl⟩
  | some inv =>
      refine ⟨fun hcontra => absurd hcontra (by simp), fun hg => ?_⟩
      exact absurd (h2.mpr hg) (by simp [hm])

lemma hillPairs_length (l : List Char) :
    (hillPairs l).length = (l.length + 1) / 2 := by
  induction l using hillPairs.induct with
  | case1 => simp [hillPairs]
  | case2 a => simp [hillPairs]
  | case3 a b rest ih => simp [hillPairs, ih]; omega

lemma flatMap_pair_length (pairs : List (Char × Char))
    (f g : Char × Char → Char) :
    (pairs.flatMap (fun p => [f p, g p])).length = 2 * pairs.length := by
  induction pairs with
  | nil => simp
  | cons p rest ih => simp [ih]; omega

/-- Claim C10: `encryptHill` performs no key-validity check: for every
plaintext and every 2x2 matrix it returns a ciphertext of the X-padded
length, and when the determinant is not coprime with 26 the ciphertext so
produced cannot be decrypted under the same matrix (`decryptHill` yields
`none`). -/
theorem claim_C10 (plaintext : List Char) (m : Matrix2)
    (h : Int.gcd (m.1.1 * m.2.2 - m.1.2 * m.2.1) 26 ≠ 1) :
    (encryptHill plaintext m).length
        = 2 * (((cleanNoSpace plaintext).length + 1) / 2)
    ∧ decryptHill (encryptHill plaintext m) m = none := by
  constructor
  · unfold encryptHill
    rw [flatMap_pair_length, hillPairs_length]
    by_cases hpar : (cleanNoSpace plaintext).length % 2 = 0
    · rw [if_pos hpar]
    · rw [if_neg hpar]
      simp only [List.length_append, List.length_cons, List.length_nil]
      omega
  · unfold decryptHill
    rw [(matrixInverse2x2_eq_none_iff m).mpr h]

/-- Witness for claim C10 at plaintext "AB" and the non-invertible matrix
`[[2, 0], [0, 1]]` (determinant 2). -/
theorem claim_C10_witness :
    Int.gcd ((2 : Int) * 1 - 0 * 0) 26 ≠ 1
    ∧ (encryptHill "AB".toList (((2, 0), (0, 1)) : Matrix2)).length
        = 2 * (((cleanNoSpace "AB".toList).length + 1) / 2)
    ∧ decryptHill (encryptHill "AB".toList (((2, 0), (0, 1)) : Matrix2))
        (((2, 0), (0, 1)) : Matrix2) = none :=
  ⟨by decide,
   (claim_C10 "AB".toList (((2, 0), (0, 1)) : Matrix2) (by decide)).1,
   (claim_C10 "AB".toList (((2, 0), (0, 1)) : Matrix2) (by decide)).2⟩

-- ==================== ENGLISH TEXT ANALYZER ====================

/-- The curated common-word list of the analyzer, in source order
(duplicates included). -/
def COMMON_WORDS : List (List Char) :=
  ["THE", "AND", "FOR", "ARE", "BUT", "NOT", "YOU", "ALL", "CAN", "HAD",
   "HER", "WAS", "ONE", "OUR", "OUT",
   "HAS", "HIS", "HOW", "ITS", "LET", "MAY", "NEW", "NOW", "OLD", "SEE",
   "WAY", "WHO", "BOY", "DID", "GET",
   "HIM", "HIS", "HOW", "MAN", "OWN", "SAY", "SHE", "TWO", "USE", "IS",
   "IT", "BE", "AS", "AT", "SO", "WE",
   "HE", "BY", "OR", "ON", "DO", "IF", "ME", "MY", "UP", "AN", "GO", "NO",
   "US", "AM", "TO", "OF", "IN", "A", "I",
   "THAT", "WITH", "HAVE", "THIS", "WILL", "YOUR", "FROM", "THEY", "BEEN",
   "CALL", "COME", "MADE", "FIND",
   "WERE", "SAID", "EACH", "MAKE", "LIKE", "INTO", "TIME", "VERY", "WHEN",
   "MORE", "SOME", "THAN", "THEM",
   "WORD", "WHAT", "JUST", "KNOW", "TAKE", "WELL", "BACK", "GOOD", "HERE",
   "ALSO", "MUST", "NAME", "LONG",
   "OVER", "SUCH", "LOOK", "ONLY", "YEAR", "MOST", "LAST", "WORK", "NEED",
   "FEEL", "EVEN", "WANT", "GIVE",
   "THESE", "FIRST", "COULD", "WOULD", "THERE", "THEIR", "WHICH", "ABOUT",
   "OTHER", "AFTER", "THINK",
   "BEING", "WHERE", "EVERY", "GREAT", "STILL", "NEVER", "THOSE", "FOUND",
   "UNDER", "WHILE", "AGAIN",
   "WORLD", "PLACE", "SMALL", "RIGHT", "LITTLE", "THREE", "THING", "STATE",
   "NIGHT", "HOUSE",
   "PEOPLE", "SHOULD", "BEFORE", "THROUGH", "DIFFERENT", "BETWEEN",
   "BECAUSE", "ANOTHER", "HOWEVER",
   "SOMETHING", "WITHOUT", "AGAINST", "IMPORTANT", "NOTHING", "GOVERNMENT",
   "TOGETHER", "CHILDREN",
   "MESSAGE", "SECRET", "ATTACK", "SECURE", "SYSTEM", "CIPHER",
   "CRYPTOGRAPHY", "ENCRYPT", "DECRYPT",
   "HELLO", "WORLD", "PASSWORD", "SECURITY", "HIDDEN", "PLAINTEXT",
   "CIPHERTEXT", "INFORMATION"].map String.toList

/-- English unigram reference frequencies, in source order. -/
def ENGLISH_FREQ : List (Char × ℚ) :=
  [('E', 0.127), ('T', 0.091), ('A', 0.082), ('O', 0.075), ('I', 0.070),
   ('N', 0.067), ('S', 0.063), ('H', 0.061), ('R', 0.060), ('D', 0.043),
   ('L', 0.040), ('C', 0.028), ('U', 0.028), ('M', 0.024), ('W', 0.024),
   ('F', 0.022), ('G', 0.020), ('Y', 0.020), ('P', 0.019), ('B', 0.015),
   ('V', 0.010), ('K', 0.008), ('J', 0.002), ('X', 0.002), ('Q', 0.001),
   ('Z', 0.001)]

/-- The curated common-bigram set. -/
def COMMON_BIGRAMS : List (List Char) :=
  ["TH", "HE", "IN", "ER", "AN", "RE", "ON", "AT", "EN", "ND",
   "TI", "ES", "OR", "TE", "OF", "ED", "IS", "IT", "AL", "AR",
   "ST", "TO", "NT", "NG", "SE", "HA", "AS", "OU", "IO", "LE",
   "VE", "CO", "ME", "DE", "HI", "RI", "RO", "IC", "NE", "EA",
   "RA", "CE", "LI", "CH", "LL", "BE", "MA", "SI", "OM", "UR"].map
    String.toList

/-- The curated common-trigram set. -/
def COMMON_TRIGRAMS : List (List Char) :=
  ["THE", "AND", "ING", "HER", "HAT", "HIS", "THA", "ERE", "FOR", "ENT",
   "ION", "TER", "WAS", "YOU", "ITH", "VER", "ALL", "WIT", "THI", "TIO",
   "EVE", "OUR", "ERS", "ESS", "AVE", "ECT", "ONE", "IST", "RES",
   "OTH"].map String.toList

/-- `getLetterFrequencies(text)[c]`: relative frequency of `c` among the
A-Z letters of the text, with the `letters.length || 1` guard against an
empty denominator. -/
def getLetterFrequency (text : List Char) (c : Char) : ℚ :=
  let letters := filterAZ text
  let total : Nat := if letters.length = 0 then 1 else letters.length
  ((letters.count c : ℚ)) / (total : ℚ)

/-- `chiSquaredScore`: chi-squared distance of the observed letter
frequencies to `ENGLISH_FREQ`, normalized by `max(0, 1 - chiSquared / 2)`. -/
def chiSquaredScore (text : List Char) : ℚ :=
  let chiSquared := ENGLISH_FREQ.foldl
    (fun acc p =>
      acc + (getLetterFrequency text p.1 - p.2) *
        (getLetterFrequency text p.1 - p.2) / p.2) 0
  max 0 (1 - chiSquared / 2)

/-- `bigramScore`: fraction of overlapping 2-letter windows found in
`COMMON_BIGRAMS`; 0 when fewer than 2 letters. -/
def bigramScore (text : List Char) : ℚ :=
  let cleanedText := filterAZ text
  if cleanedText.length < 2 then 0
  else
    let wins := (List.range (cleanedText.length - 1)).map
      (fun i => (cleanedText.drop i).take 2)
    let score := (wins.filter (fun w => COMMON_BIGRAMS.contains w)).length
    let total := wins.length
    if 0 < total then (score : ℚ) / (total : ℚ) else 0

/-- `trigramScore`: fraction of overlapping 3-letter windows found in
`COMMON_TRIGRAMS`; 0 when fewer than 3 letters. -/
def trigramScore (text : List Char) : ℚ :=
  let cleanedText := filterAZ text
  if cleanedText.length < 3 then 0
  else
    let wins := (List.range (cleanedText.length - 2)).map
      (fun i => (cleanedText.drop i).take 3)
    let score := (wins.filter (fun w => COMMON_TRIGRAMS.contains w)).length
    let total := wins.length
    if 0 < total then (score : ℚ) / (total : ℚ) else 0

/-- Character class of the JS regex `\s` on the code points that can occur
here (the candidate texts are ASCII). -/
def isJsSpace (c : Char) : Bool :=
  c == ' ' || c == '\t' || c == '\n' || c == '\r' || c == '\x0b' || c == '\x0c'

/-- `text.split(/\s+/).filter(w => w.length > 0)`. -/
def wordsOf (text : List Char) : List (List Char) :=
  (List.splitOnP isJsSpace text).filter (fun w => w.length > 0)

/-- `singleWordScore`: scan for curated common words of length at least 3
embedded in the text; total matched length normalized by text length
(`text.length || 1`), capped at 1. -/
def singleWordScore (text : List Char) : ℚ :=
  let score := COMMON_WORDS.foldl
    (fun acc w => if 3 ≤ w.length ∧ w <:+: text then acc + w.length else acc)
    0
  min 1 ((score : ℚ) / ((if text.length = 0 then 1 else text.length : Nat) : ℚ))

/-- The body of the word loop in `dictionaryScore`: accumulate
`(matchScore, totalWeight)`, weighting each word by
`min(cleanWord.length, 8)`. -/
def dictStep (a : Nat × Nat) (word : List Char) : Nat × Nat :=
  let cleanWord := filterAZ word
  let weight := min cleanWord.length 8
  (if COMMON_WORDS.contains cleanWord then a.1 + weight else a.1,
   a.2 + weight)

/-- `dictionaryScore`: split on whitespace; when the word list is empty
fall back to `singleWordScore` on the letters; otherwise return
`matchScore / totalWeight` (0 when the total weight is 0). -/
def dictionaryScore (text : List Char) : ℚ :=
  let words := wordsOf text
  if words.length = 0 then singleWordScore (filterAZ text)
  else
    let acc := words.foldl dictStep (0, 0)
    if 0 < acc.2 then (acc.1 : ℚ) / (acc.2 : ℚ) else 0

/-- The `SCORING_WEIGHTS` constant: `(dictionaryMatch, letterFrequency,
bigramScore, trigramScore)`. -/
def SCORING_WEIGHTS : ℚ × ℚ × ℚ × ℚ := (0.50, 0.25, 0.15, 0.10)

/-- JS `Math.round` on the nonnegative values used here: floor of `q + 1/2`. -/
def jsRound (q : ℚ) : Int := ⌊q + 1 / 2⌋

/-- The record returned by `analyzeText`. -/
structure Analysis where
  composite : ℚ
  dictionary : ℚ
  frequency : ℚ
  bigram : ℚ
  trigram : ℚ
  confidence : Int
deriving DecidableEq, Repr

/-- `analyzeText`: the four signals, their weighted composite, and the
rounded percentage confidence. -/
def analyzeText (text : List Char) : Analysis :=
  let dictScore := dictionaryScore text
  let freqScore := chiSquaredScore text
  let biScore := bigramScore text
  let triScore := trigramScore text
  let compositeScore :=
    SCORING_WEIGHTS.1 * dictScore + SCORING_WEIGHTS.2.1 * freqScore +
    SCORING_WEIGHTS.2.2.1 * biScore + SCORING_WEIGHTS.2.2.2 * triScore
  { composite := compositeScore
    dictionary := dictScore
    frequency := freqScore
    bigram := biScore
    trigram := triScore
    confidence := jsRound (compositeScore * 100) }

/-- Comparison used by `scoreResults`' descending sort
(`(a, b) => b.score - a.score`): `a` may precede `b` iff `a.score ≥ b.score`. -/
def scoreGE {κ : Type} (a b : CandidateResult κ) : Prop := b.score ≤ a.score

instance {κ : Type} : DecidableRel (@scoreGE κ) :=
  fun a b => inferInstanceAs (Decidable (b.score ≤ a.score))

instance {κ : Type} : IsTotal (CandidateResult κ) scoreGE :=
  ⟨fun a b => le_total b.score a.score⟩

instance {κ : Type} : IsTrans (CandidateResult κ) scoreGE :=
  ⟨fun _ _ _ h1 h2 => le_trans h2 h1⟩

/-- `scoreResults`: fill in each candidate's `score`/`confidence` from
`analyzeText` of its plaintext, then sort descending by score (JS stable
sort, modelled by the stable insertion sort). -/
def scoreResults {κ : Type} (results : List (CandidateResult κ)) :
    List (CandidateResult κ) :=
  (results.map (fun r =>
    { r with
      score := (analyzeText r.plaintext).composite
      confidence := (analyzeText r.plaintext).confidence })).insertionSort
    scoreGE

/-- The completion path of the worker's `runCrackJob` (`worker.js`): every
successful branch passes its unscored candidate list through
`Analyzer.scoreResults` and posts `scored.slice(0, 50)` back to the
caller. -/
def runCrackJobDeliver {κ : Type} (results : List (CandidateResult κ)) :
    List (CandidateResult κ) :=
  (scoreResults results).take 50

set_option maxRecDepth 40000 in
unseal Rat.mul Rat.inv Rat.add Rat.sub Rat.ofScientific in
/-- Claim C6: evaluation at the failing input: the non-whitespace text
"HELLOWORLD" is treated as a single dictionary word and scores 0, even
though the substring scanner `singleWordScore` (which the spec and the
code's own comments describe for no-whitespace text) would score it 1;
whitespace-separated text is weighted as specified ("HELLO WORLD" scores
1). -/
theorem claim_C6 :
    dictionaryScore "HELLOWORLD".toList = 0
    ∧ singleWordScore (filterAZ "HELLOWORLD".toList) = 1
    ∧ dictionaryScore "HELLO WORLD".toList = 1 := by
  refine ⟨by decide, by decide, by decide⟩

lemma dictStep_fold_le (ws : List (List Char)) :
    ∀ m t : Nat, m ≤ t →
      (ws.foldl dictStep (m, t)).1 ≤ (ws.foldl dictStep (m, t)).2 := by
  induction ws with
  | nil => intro m t h; simpa
  | cons w rest ih =>
      intro m t h
      simp only [List.foldl_cons]
      have hstep : (dictStep (m, t) w).1 ≤ (dictStep (m, t) w).2 := by
        simp only [dictStep]
        by_cases hc : COMMON_WORDS.contains (filterAZ w) = true
        · simp only [if_pos hc]
          omega
        · simp only [if_neg hc]
          omega
      have hres := ih (dictStep (m, t) w).1 (dictStep (m, t) w).2 hstep
      simpa using hres

lemma singleWordScore_bounds (text : List Char) :
    0 ≤ singleWordScore text ∧ singleWordScore text ≤ 1 := by
  unfold singleWordScore
  constructor
  · apply le_min
    · norm_num
    · apply div_nonneg
      · exact Nat.cast_nonneg _
      · exact Nat.cast_nonneg _
  · exact min_le_left _ _

lemma dictionaryScore_bounds (text : List Char) :
    0 ≤ dictionaryScore text ∧ dictionaryScore text ≤ 1 := by
  unfold dictionaryScore
  by_cases hw : (wordsOf text).length = 0
  · simp only [hw, if_pos rfl]
    exact singleWordScore_bounds _
  · rw [if_neg hw]
    have hle := dictStep_fold_le (wordsOf text) 0 0 (le_refl 0)
    by_cases ht : 0 < ((wordsOf text).foldl dictStep (0, 0)).2
    · rw [if_pos ht]
      constructor
      · exact div_nonneg (Nat.cast_nonneg _) (Nat.cast_nonneg _)
      · rw [div_le_one (by exact_mod_cast ht)]
        exact_mod_cast hle
    · rw [if_neg ht]
      norm_num

unseal Rat.ofScientific in
lemma english_freq_pos : ∀ p ∈ ENGLISH_FREQ, 0 < p.2 := by decide

lemma chi_fold_nonneg (g : Char → ℚ) :
    ∀ (l : List (Char × ℚ)) (acc : ℚ), 0 ≤ acc → (∀ p ∈ l, 0 < p.2) →
      0 ≤ l.foldl (fun a p => a + (g p.1 - p.2) * (g p.1 - p.2) / p.2) acc := by
  intro l
  induction l with
  | nil => intro acc h _; simpa
  | cons p rest ih =>
      intro acc h hpos
      simp only [List.foldl_cons]
      apply ih
      · have hp : 0 < p.2 := hpos p (List.mem_cons_self p rest)
        have hterm : 0 ≤ (g p.1 - p.2) * (g p.1 - p.2) / p.2 :=
          div_nonneg (mul_self_nonneg _) (le_of_lt hp)
        linarith
      · intro q hq
        exact hpos q (List.mem_cons_of_mem p hq)

lemma chiSquaredScore_bounds (text : List Char) :
    0 ≤ chiSquaredScore text ∧ chiSquaredScore text ≤ 1 := by
  unfold chiSquaredScore
  constructor
  · exact le_max_left 0 _
  · apply max_le
    · norm_num
    · have hnn := chi_fold_nonneg (getLetterFrequency text) ENGLISH_FREQ 0
        (le_refl 0) english_freq_pos
      linarith

lemma windowRatio_bounds (s t : Nat) (hst : s ≤ t) :
    0 ≤ (if 0 < t then (s : ℚ) / (t : ℚ) else 0)
    ∧ (if 0 < t then (s : ℚ) / (t : ℚ) else 0) ≤ 1 := by
  by_cases ht : 0 < t
  · rw [if_pos ht]
    constructor
    · positivity
    · rw [div_le_one (by exact_mod_cast ht)]
      exact_mod_cast hst
  · rw [if_neg ht]
    norm_num

lemma bigramScore_bounds (text : List Char) :
    0 ≤ bigramScore text ∧ bigramScore text ≤ 1 := by
  unfold bigramScore
  by_cases hlen : (filterAZ text).length < 2
  · simp [hlen]
  · rw [if_neg hlen]
    apply windowRatio_bounds
    have hfil := List.length_filter_le (fun w => COMMON_BIGRAMS.contains w)
      ((List.range ((filterAZ text).length - 1)).map
        (fun i => ((filterAZ text).drop i).take 2))
    simpa using hfil

lemma trigramScore_bounds (text : List Char) :
    0 ≤ trigramScore text ∧ trigramScore text ≤ 1 := by
  unfold trigramScore
  by_cases hlen : (filterAZ text).length < 3
  · simp [hlen]
  · rw [if_neg hlen]
    apply windowRatio_bounds
    have hfil := List.length_filter_le (fun w => COMMON_TRIGRAMS.contains w)
      ((List.range ((filterAZ text).length - 2)).map
        (fun i => ((filterAZ text).drop i).take 3))
    simpa using hfil

/-- Claim C8: for every input text the composite score equals
`0.50 * dictionary + 0.25 * frequency + 0.15 * bigram + 0.10 * trigram`,
the composite always lies in [0, 1], and the confidence is the rounded
percentage, hence an integer in [0, 100]. -/
theorem claim_C8 (text : List Char) :
    (analyzeText text).composite =
        (0.50 : ℚ) * dictionaryScore text + 0.25 * chiSquaredScore text
          + 0.15 * bigramScore text + 0.10 * trigramScore text
    ∧ 0 ≤ (analyzeText text).composite
    ∧ (analyzeText text).composite ≤ 1
    ∧ (analyzeText text).confidence = jsRound ((analyzeText text).composite * 100)
    ∧ 0 ≤ (analyzeText text).confidence
    ∧ (analyzeText text).confidence ≤ 100 := by
  have hform : (analyzeText text).composite =
      (0.50 : ℚ) * dictionaryScore text + 0.25 * chiSquaredScore text
        + 0.15 * bigramScore text + 0.10 * trigramScore text := rfl
  obtain ⟨hd0, hd1⟩ := dictionaryScore_bounds text
  obtain ⟨hf0, hf1⟩ := chiSquaredScore_bounds text
  obtain ⟨hb0, hb1⟩ := bigramScore_bounds text
  obtain ⟨ht0, ht1⟩ := trigramScore_bounds text
  have hc0 : 0 ≤ (analyzeText text).composite := by rw [hform]; linarith
  have hc1 : (analyzeText text).composite ≤ 1 := by rw [hform]; linarith
  have hconf : (analyzeText text).confidence =
      jsRound ((analyzeText text).composite * 100) := rfl
  refine ⟨hform, hc0, hc1, hconf, ?_, ?_⟩
  · rw [hconf]
    unfold jsRound
    apply Int.le_floor.mpr
    push_cast
    nlinarith
  · rw [hconf]
    unfold jsRound
    have hlt : ((analyzeText text).composite * 100 + 1 / 2 : ℚ) < ((101 : ℤ) : ℚ) := by
      push_cast
      nlinarith
    have := Int.floor_lt.mpr hlt
    omega

/-- Claim C9: the candidate list delivered by a successfully completing
crack job contains at most 50 entries and is fully sorted in descending
order of composite score before delivery, whatever unscored candidate
list the per-cipher dispatch produced. -/
theorem claim_C9 {κ : Type} (results : List (CandidateResult κ)) :
    (runCrackJobDeliver results).length ≤ 50
    ∧ List.Pairwise scoreGE (runCrackJobDeliver results) := by
  constructor
  · unfold runCrackJobDeliver
    exact List.length_take_le 50 (scoreResults results)
  · unfold runCrackJobDeliver scoreResults
    have hs : List.Sorted scoreGE
        ((results.map (fun r =>
          { r with
            score := (analyzeText r.plaintext).composite
            confidence := (analyzeText r.plaintext).confidence })).insertionSort
          scoreGE) :=
      List.sorted_insertionSort scoreGE _
    exact List.Pairwise.sublist (List.take_sublist 50 _) hs

-- ==================== VIGENERE BRUTE FORCE (claim C7) ====================

/-- The alphabet constant of the source. -/
def ALPHABET : List Char := "ABCDEFGHIJKLMNOPQRSTUVWXYZ".toList

/-- `calculateIC`: index of coincidence `Σ f(f-1) / (n(n-1))` of the A-Z
letters of the text; 0 when fewer than 2 letters.  The source sums over
the distinct letters present; summing over all 26 letters is the same
because absent letters contribute 0. -/
def calculateIC (text : List Char) : ℚ :=
  let cleaned := filterAZ text
  let n := cleaned.length
  if n ≤ 1 then 0
  else
    ((((ALPHABET.map
        (fun c => cleaned.count c * (cleaned.count c - 1))).sum : Nat) : ℚ))
      / ((n : ℚ) * ((n : ℚ) - 1))

/-- The interleaved subsequence of positions `j = i, i + keyLen,
i + 2·keyLen, ...` (the inner `for (j = i; j < length; j += keyLen)`
loops). -/
def icSubseq (cleaned : List Char) (i keyLen : Nat) : List Char :=
  (List.range cleaned.length).filterMap
    (fun j => if i ≤ j ∧ (j - i) % keyLen = 0 then cleaned.get? j else none)

/-- Per-key-length average IC over the `keyLen` interleaved subsequences. -/
def avgIC (cleaned : List Char) (keyLen : Nat) : ℚ :=
  (((List.range keyLen).map
    (fun i => calculateIC (icSubseq cleaned i keyLen))).sum) / (keyLen : ℚ)

/-- The `(keyLen, ic)` records for `keyLen = 1..15` built by
`estimateVigenereKeyLength` (with its own `replace(/[^A-Z]/g, '')`). -/
def icPairs (ciphertext : List Char) : List (Nat × ℚ) :=
  (List.range' 1 15).map
    (fun keyLen => (keyLen, avgIC (filterAZ ciphertext) keyLen))

/-- Comparison of the sort
`(a, b) => Math.abs(a.ic - 0.067) - Math.abs(b.ic - 0.067)`: ascending
absolute distance from the English IC 0.067. -/
def icDistLE (p q : Nat × ℚ) : Prop := |p.2 - 0.067| ≤ |q.2 - 0.067|

instance : DecidableRel icDistLE :=
  fun p q => inferInstanceAs (Decidable (|p.2 - 0.067| ≤ |q.2 - 0.067|))

instance : IsTotal (Nat × ℚ) icDistLE :=
  ⟨fun p q => le_total |p.2 - 0.067| |q.2 - 0.067|⟩

instance : IsTrans (Nat × ℚ) icDistLE := ⟨fun _ _ _ => le_trans⟩

/-- `estimateVigenereKeyLength`: rank key lengths 1..15 by distance of the
average IC from 0.067 (JS stable sort, modelled by the stable insertion
sort) and keep the 5 closest. -/
def estimateVigenereKeyLength (ciphertext : List Char) : List Nat :=
  (((icPairs ciphertext).insertionSort icDistLE).take 5).map (fun p => p.1)

/-- Count of decoded 'E' characters when the subsequence is shifted back
by `shift`. -/
def eCnt (substr : List Char) (shift : Nat) : Nat :=
  (substr.map (fun c => numToChar (charToNum c - (shift : Int)))).count 'E'

/-- The `bestShift/bestScore` loop: first shift in 0..25 whose E-count
strictly exceeds every earlier one, starting from `bestScore = -1`. -/
def bestShift (substr : List Char) : Nat :=
  ((List.range 26).foldl
    (fun best shift =>
      if ((eCnt substr shift : Int)) > best.2
      then (shift, (eCnt substr shift : Int)) else best)
    (0, -1)).1

/-- The key recovered for a candidate key length: one best shift per
position. -/
def vigenereKeyGuess (cleaned : List Char) (keyLen : Nat) : List Char :=
  (List.range keyLen).map
    (fun i => numToChar ((bestShift (icSubseq cleaned i keyLen) : Int)))

/-- One candidate per retained key length; the recovered key is nonempty
(keyLen is at least 1), so `decryptVigenere` always returns a plaintext
and the `getD []` fallback is dead. -/
def vigenereCandidate (cleaned : List Char) (keyLen : Nat) :
    CandidateResult (List Char) :=
  { key := vigenereKeyGuess cleaned keyLen
    plaintext := (decryptVigenere cleaned (vigenereKeyGuess cleaned keyLen)).getD []
    score := 0
    confidence := 0 }

/-- `bruteForceVigenere`: one candidate per estimated key length, over the
cleaned, space-stripped ciphertext. -/
def bruteForceVigenere (ciphertext : List Char) :
    List (CandidateResult (List Char)) :=
  (estimateVigenereKeyLength (cleanNoSpace ciphertext)).map
    (vigenereCandidate (cleanNoSpace ciphertext))

lemma icPairs_length (ct : List Char) : (icPairs ct).length = 15 := by
  unfold icPairs
  simp

lemma mem_icPairs {ct : List Char} {q : Nat × ℚ} (h : q ∈ icPairs ct) :
    q.1 ∈ List.range' 1 15 ∧ q.2 = avgIC (filterAZ ct) q.1 := by
  unfold icPairs at h
  obtain ⟨k, hk, rfl⟩ := List.mem_map.mp h
  exact ⟨hk, rfl⟩

lemma estimate_length (ct : List Char) :
    (estimateVigenereKeyLength ct).length = 5 := by
  unfold estimateVigenereKeyLength
  rw [List.length_map, List.length_take,
    (List.perm_insertionSort icDistLE (icPairs ct)).length_eq, icPairs_length]
  omega

lemma estimate_mem {ct : List Char} {a : Nat}
    (h : a ∈ estimateVigenereKeyLength ct) : a ∈ List.range' 1 15 := by
  unfold estimateVigenereKeyLength at h
  obtain ⟨q, hq, rfl⟩ := List.mem_map.mp h
  have hq2 : q ∈ (icPairs ct).insertionSort icDistLE := List.mem_of_mem_take hq
  have hq3 : q ∈ icPairs ct :=
    (List.perm_insertionSort icDistLE (icPairs ct)).mem_iff.mp hq2
  exact (mem_icPairs hq3).1

set_option maxHeartbeats 2000000 in
lemma estimate_closest {ct : List Char} {a b : Nat}
    (ha : a ∈ estimateVigenereKeyLength ct) (hb : b ∈ List.range' 1 15)
    (hbn : b ∉ estimateVigenereKeyLength ct) :
    |avgIC (filterAZ ct) a - 0.067| ≤ |avgIC (filterAZ ct) b - 0.067| := by
  set L := (icPairs ct).insertionSort icDistLE with hLdef
  have hperm : L.Perm (icPairs ct) := List.perm_insertionSort icDistLE (icPairs ct)
  have hsorted : List.Pairwise icDistLE L :=
    List.sorted_insertionSort icDistLE (icPairs ct)
  have hest : estimateVigenereKeyLength ct = (L.take 5).map (fun p => p.1) := rfl
  rw [hest] at ha hbn
  obtain ⟨qa, hqa, rfl⟩ := List.mem_map.mp ha
  have hqa_pairs : qa ∈ icPairs ct :=
    hperm.mem_iff.mp (List.mem_of_mem_take hqa)
  have hqa_val : qa.2 = avgIC (filterAZ ct) qa.1 := (mem_icPairs hqa_pairs).2
  have hpb_pairs : (b, avgIC (filterAZ ct) b) ∈ icPairs ct := by
    unfold icPairs
    exact List.mem_map_of_mem _ hb
  have hpb_sorted : (b, avgIC (filterAZ ct) b) ∈ L := hperm.mem_iff.mpr hpb_pairs
  have hpb_not_take : (b, avgIC (filterAZ ct) b) ∉ L.take 5 := by
    intro hmem
    exact hbn (List.mem_map.mpr ⟨(b, avgIC (filterAZ ct) b), hmem, rfl⟩)
  have hpb_drop : (b, avgIC (filterAZ ct) b) ∈ L.drop 5 := by
    have hmem := hpb_sorted
    rw [← List.take_append_drop 5 L] at hmem
    rcases List.mem_append.mp hmem with hl | hr
    · exact absurd hl hpb_not_take
    · exact hr
  have hpair := hsorted
  rw [← List.take_append_drop 5 L] at hpair
  have hrel := (List.pairwise_append.mp hpair).2.2 qa hqa
    (b, avgIC (filterAZ ct) b) hpb_drop
  unfold icDistLE at hrel
  rwa [hqa_val] at hrel

lemma bestShift_foldl (f : Nat → Int) (l : List Nat) :
    ∀ b : Nat × Int,
      (∀ t ∈ l, f t ≤ (l.foldl
        (fun best s => if f s > best.2 then (s, f s) else best) b).2)
      ∧ b.2 ≤ (l.foldl
          (fun best s => if f s > best.2 then (s, f s) else best) b).2
      ∧ ((l.foldl (fun best s => if f s > best.2 then (s, f s) else best) b) = b
          ∨ ((l.foldl (fun best s => if f s > best.2 then (s, f s) else best) b).1 ∈ l
             ∧ f (l.foldl (fun best s => if f s > best.2 then (s, f s) else best) b).1
               = (l.foldl (fun best s => if f s > best.2 then (s, f s) else best) b).2)) := by
  induction l with
  | nil =>
      intro b
      refine ⟨by simp, le_refl _, Or.inl rfl⟩
  | cons a l ih =>
      intro b
      simp only [List.foldl_cons]
      obtain ⟨ih1, ih2, ih3⟩ := ih (if f a > b.2 then (a, f a) else b)
      by_cases ha : f a > b.2
      · rw [if_pos ha] at ih1 ih2 ih3 ⊢
        refine ⟨?_, ?_, ?_⟩
        · intro t ht
          rcases List.mem_cons.mp ht with rfl | htl
          · exact le_trans (by simp) ih2
          · exact ih1 t htl
        · exact le_trans (le_of_lt ha) (le_trans (by simp) ih2)
        · rcases ih3 with heq | hr
          · right
            rw [heq]
            exact ⟨List.mem_cons_self a l, rfl⟩
          · right
            exact ⟨List.mem_cons_of_mem a hr.1, hr.2⟩
      · rw [if_neg ha] at ih1 ih2 ih3 ⊢
        refine ⟨?_, ih2, ?_⟩
        · intro t ht
          rcases List.mem_cons.mp ht with rfl | htl
          · exact le_trans (le_of_not_lt ha) ih2
          · exact ih1 t htl
        · rcases ih3 with heq | hr
          · exact Or.inl heq
          · exact Or.inr ⟨List.mem_cons_of_mem a hr.1, hr.2⟩

lemma bestShift_spec (substr : List Char) :
    bestShift substr < 26
    ∧ ∀ t < 26, eCnt substr t ≤ eCnt substr (bestShift substr) := by
  obtain ⟨h1, h2, h3⟩ :=
    bestShift_foldl (fun s => (eCnt substr s : Int)) (List.range 26) (0, -1)
  rcases h3 with heq | ⟨hmem, hval⟩
  · exfalso
    have h0 := h1 0 (by simp)
    rw [heq] at h0
    have : (0 : Int) ≤ (eCnt substr 0 : Int) := Int.natCast_nonneg _
    omega
  · constructor
    · exact List.mem_range.mp hmem
    · intro t ht
      have hle := h1 t (List.mem_range.mpr ht)
      rw [← hval] at hle
      exact_mod_cast hle

lemma vigenereKeyGuess_length (cl : List Char) (kl : Nat) :
    (vigenereKeyGuess cl kl).length = kl := by
  unfold vigenereKeyGuess
  simp

lemma vigenereKeyGuess_getD (cl : List Char) (kl i : Nat) (hi : i < kl) :
    (vigenereKeyGuess cl kl).getD i 'A'
      = numToChar ((bestShift (icSubseq cl i kl) : Int)) := by
  unfold vigenereKeyGuess
  rw [List.getD_eq_getElem?_getD, List.getElem?_map, List.getElem?_range hi]
  simp

set_option maxRecDepth 10000 in
/-- Claim C7: for every ciphertext, `bruteForceVigenere` returns exactly 5
candidates, one per retained key length; the retained lengths come from
1..15 and are the 5 whose average subsequence IC lies closest to 0.067;
and each letter of a recovered key is a shift in 0..25 that maximizes the
count of decoded 'E' characters in its position's subsequence. -/
theorem claim_C7 (ciphertext : List Char) :
    (bruteForceVigenere ciphertext).length = 5
    ∧ bruteForceVigenere ciphertext
        = (estimateVigenereKeyLength (cleanNoSpace ciphertext)).map
            (vigenereCandidate (cleanNoSpace ciphertext))
    ∧ (∀ a ∈ estimateVigenereKeyLength (cleanNoSpace ciphertext),
        a ∈ List.range' 1 15)
    ∧ (∀ a ∈ estimateVigenereKeyLength (cleanNoSpace ciphertext),
       ∀ b ∈ List.range' 1 15,
        b ∉ estimateVigenereKeyLength (cleanNoSpace ciphertext) →
        |avgIC (filterAZ (cleanNoSpace ciphertext)) a - 0.067|
          ≤ |avgIC (filterAZ (cleanNoSpace ciphertext)) b - 0.067|)
    ∧ (∀ kl ∈ estimateVigenereKeyLength (cleanNoSpace ciphertext),
        (vigenereKeyGuess (cleanNoSpace ciphertext) kl).length = kl
        ∧ ∀ i < kl, ∃ s : Nat, s < 26
            ∧ (vigenereKeyGuess (cleanNoSpace ciphertext) kl).getD i 'A'
                = numToChar ((s : Int))
            ∧ ∀ t < 26,
                eCnt (icSubseq (cleanNoSpace ciphertext) i kl) t
                  ≤ eCnt (icSubseq (cleanNoSpace ciphertext) i kl) s) := by
  refine ⟨?_, rfl, ?_, ?_, ?_⟩
  · unfold bruteForceVigenere
    rw [List.length_map, estimate_length]
  · intro a ha
    exact estimate_mem ha
  · intro a ha b hb hbn
    exact estimate_closest ha hb hbn
  · intro kl _
    refine ⟨vigenereKeyGuess_length _ _, ?_⟩
    intro i hi
    obtain ⟨hlt, hmax⟩ := bestShift_spec (icSubseq (cleanNoSpace ciphertext) i kl)
    exact ⟨bestShift (icSubseq (cleanNoSpace ciphertext) i kl), hlt,
      vigenereKeyGuess_getD _ _ _ hi, hmax⟩

set_option maxRecDepth 40000 in
unseal Rat.mul Rat.inv Rat.add Rat.sub Rat.ofScientific in
/-- Witness for claim C7 at the empty ciphertext: 5 candidates are
produced, the retained lengths are closest-ranked (instantiated at
retained length 1 against excluded length 6), and the first key letter of
the length-1 candidate is a maximizing shift. -/
theorem claim_C7_witness :
    (bruteForceVigenere []).length = 5
    ∧ (1 ∈ estimateVigenereKeyLength (cleanNoSpace [])
       ∧ 6 ∈ List.range' 1 15
       ∧ 6 ∉ estimateVigenereKeyLength (cleanNoSpace [])
       ∧ |avgIC (filterAZ (cleanNoSpace [])) 1 - 0.067|
           ≤ |avgIC (filterAZ (cleanNoSpace [])) 6 - 0.067|)
    ∧ (1 ∈ estimateVigenereKeyLength (cleanNoSpace [])
       ∧ 0 < 1
       ∧ ∃ s : Nat, s < 26
           ∧ (vigenereKeyGuess (cleanNoSpace []) 1).getD 0 'A'
               = numToChar ((s : Int))
           ∧ ∀ t < 26,
               eCnt (icSubseq (cleanNoSpace []) 0 1) t
                 ≤ eCnt (icSubseq (cleanNoSpace []) 0 1) s) := by
  refine ⟨(claim_C7 []).1, ⟨by decide, by decide, by decide, ?_⟩,
    ⟨by decide, by decide, ?_⟩⟩
  · exact (claim_C7 []).2.2.2.1 1 (by decide) 6 (by decide) (by decide)
  · exact ((claim_C7 []).2.2.2.2 1 (by decide)).2 0 (by decide)

end CryptoBreaker
